import Mathlib

/-
Verification of the synchronization core of deepin-anything
(src/server/src/core/base_event_handler.cpp).

The engine owns a pending buffer (records_), an addition job queue
(addition_jobs_), a batch policy (batch_size_ = 100, batch_interval_,
last_addition_time_), a stop flag, and a worker thread; it talks to an
index store (index_manager_) and a mount snapshot (mnt_manager_).

Pure data is embedded directly; the index store and mount snapshot are
external collaborators, modelled from the spec where their behaviour
matters.  Store calls are instrumented with an event log so that
claims about which store operations are invoked (and with which
arguments) are provable.
-/

namespace DeepinAnything

/-- One invocation of the Index Store Gateway, recorded for
instrumentation.  The arguments logged are the ones the engine passes. -/
inductive StoreEvent where
  | addDelayed (record : String)
  | addImmediate (record : String)
  | removeImmediate (path : String)
  | removeDelayed (term : String)
  | processDeletions
  | queryEvt (path keywords : String) (offset maxCount : Int) (fuzzy : Bool)
  deriving DecidableEq, Repr

/-- Modelled from the spec: the Index Store Gateway (index_manager_) is an
external collaborator (its implementation is not part of the observed
source).  Its state is a set of indexed documents, a queue of delayed
additions, a queue of deletion jobs, and an instrumentation log of every
call made into it. -/
structure IndexManager where
  documents : List String
  delayedAdds : List String
  deletionJobs : List String
  eventLog : List StoreEvent
  deriving DecidableEq, Repr

/-- Modelled from the spec: addDelayed enqueues a mutation for later batch
application rather than applying it immediately. -/
def IndexManager.add_index_delay (m : IndexManager) (r : String) : IndexManager :=
  { m with delayedAdds := m.delayedAdds ++ [r],
           eventLog := m.eventLog ++ [StoreEvent.addDelayed r] }

/-- Modelled from the spec: addImmediate applies the addition to the store
as part of the current batch flush. -/
def IndexManager.add_index (m : IndexManager) (r : String) : IndexManager :=
  { m with documents := if m.documents.contains r then m.documents else r :: m.documents,
           eventLog := m.eventLog ++ [StoreEvent.addImmediate r] }

/-- Modelled from the spec: removeImmediate removes the document for the
path; tolerant of already-absent paths. -/
def IndexManager.remove_index (m : IndexManager) (p : String) : IndexManager :=
  { m with documents := m.documents.filter (fun q => q != p),
           eventLog := m.eventLog ++ [StoreEvent.removeImmediate p] }

/-- Modelled from the spec: removeDelayed enqueues a deletion job owned and
scheduled by the store. -/
def IndexManager.remove_index_delay (m : IndexManager) (t : String) : IndexManager :=
  { m with deletionJobs := m.deletionJobs ++ [t],
           eventLog := m.eventLog ++ [StoreEvent.removeDelayed t] }

/-- Modelled from the spec: deletionJobsReady reports whether deletion jobs
are pending (the internal batching threshold is the store's own concern;
a nonempty job queue stands for readiness in the model). -/
def IndexManager.deletion_jobs_ready (m : IndexManager) : Bool :=
  !m.deletionJobs.isEmpty

/-- Modelled from the spec: processDeletionJobs applies and clears the
pending deletion jobs. -/
def IndexManager.process_deletion_jobs (m : IndexManager) : IndexManager :=
  { m with documents := m.documents.filter (fun q => !(m.deletionJobs.contains q)),
           deletionJobs := [],
           eventLog := m.eventLog ++ [StoreEvent.processDeletions] }

/-- Modelled from the spec: documentExists checks whether the path is
indexed. -/
def IndexManager.document_exists (m : IndexManager) (p : String) : Bool :=
  m.documents.contains p

/-- Modelled from the spec: the store's query operation.  The text-search
and ranking algorithm is out of scope; the model returns the document
list as an opaque stand-in and logs the call with the exact arguments,
which is what the delegation claims are about. -/
def IndexManager.search (m : IndexManager) (path keywords : String)
    (offset maxCount : Int) (fuzzy : Bool) : List String × IndexManager :=
  (m.documents,
   { m with eventLog := m.eventLog ++ [StoreEvent.queryEvt path keywords offset maxCount fuzzy] })

/-- State owned by base_event_handler: the pending buffer records_, the
addition job queue addition_jobs_, the batch policy fields, the stop flag
and the index store.  Timestamps are naturals (steady_clock is monotone). -/
structure EngineState where
  records : List String
  additionJobs : List String
  batchSize : Nat
  shouldStop : Bool
  lastAdditionTime : Nat
  batchInterval : Nat
  indexManager : IndexManager
  deriving DecidableEq, Repr

/-- The drain loop inside run_scheduled_task: repeat n times
(add_index_delay records_.front(); records_.pop_front()). -/
def drainPendingLoop : Nat → EngineState → EngineState
  | 0, s => s
  | Nat.succ n, s =>
    match s.records with
    | [] => s
    | r :: rest =>
      drainPendingLoop n
        { s with records := rest, indexManager := s.indexManager.add_index_delay r }

/-- base_event_handler::run_scheduled_task (lines 40-53): if the pending
buffer is nonempty, compute batch_size = min(500, records_.size()) and
forward that many records from the front, one at a time, to the store's
delayed add, popping each. -/
def run_scheduled_task (s : EngineState) : EngineState :=
  if s.records.isEmpty then s
  else drainPendingLoop (min 500 s.records.length) s

/-- base_event_handler::insert_pending_records (lines 72-77): append the
given records at the tail of records_. -/
def insert_pending_records (s : EngineState) (rs : List String) : EngineState :=
  { s with records := s.records ++ rs }

/-- base_event_handler::record_size (lines 79-81). -/
def record_size (s : EngineState) : Nat :=
  s.records.length

/-- Modelled from the spec: anything::ends_with (utils/string_helper, not
under the observed source) tests whether the path ends with the given
suffix; stated on the character lists so it evaluates. -/
def ends_with (s sfx : String) : Bool :=
  sfx.data.isSuffixOf s.data

/-- base_event_handler::ignored_event (lines 55-70).  The mount snapshot's
path_match_type (longest-prefix filesystem-type lookup, external) is a
parameter; the source calls it with the literal type name "fuse.dlnfs". -/
def ignored_event (path_match_type : String → String → Bool)
    (path : String) (ignored : Bool) : Bool :=
  if ends_with path ".longname" then
    true
  else if !ignored then
    if path_match_type path "fuse.dlnfs" then true else false
  else
    false

/-- base_event_handler::add_index_delay (lines 105-115): push the record
onto addition_jobs_ (the condition-variable signal when the queue exceeds
batch_size_ carries no state in the model). -/
def add_index_delay (s : EngineState) (r : String) : EngineState :=
  { s with additionJobs := s.additionJobs ++ [r] }

/-- base_event_handler::remove_index_delay (lines 117-123): forward to the
store's delayed remove (the signal when deletion jobs become ready carries
no state in the model). -/
def remove_index_delay (s : EngineState) (t : String) : EngineState :=
  { s with indexManager := s.indexManager.remove_index_delay t }

/-- The flush loop inside eat_jobs: repeat n times
(add_index addition_jobs_.front(); addition_jobs_.pop()). -/
def flushLoop : Nat → EngineState → EngineState
  | 0, s => s
  | Nat.succ n, s =>
    match s.additionJobs with
    | [] => s
    | r :: rest =>
      flushLoop n
        { s with additionJobs := rest, indexManager := s.indexManager.add_index r }

/-- base_event_handler::eat_jobs (lines 145-160): if the addition queue
exceeds batch_size_ or batch_interval_ has elapsed since
last_addition_time_, flush min(batch_size_, queue length) jobs to the
store's immediate add and stamp last_addition_time_; then, if the store
reports deletion jobs ready, process them.  The current time is a
parameter (the source samples steady_clock::now()). -/
def eat_jobs (now : Nat) (s : EngineState) : EngineState :=
  let s1 :=
    if s.additionJobs.length > s.batchSize || now - s.lastAdditionTime ≥ s.batchInterval then
      let s2 := flushLoop (min s.batchSize s.additionJobs.length) s
      { s2 with lastAdditionTime := now }
    else s
  if s1.indexManager.deletion_jobs_ready then
    { s1 with indexManager := s1.indexManager.process_deletion_jobs }
  else s1

/-- base_event_handler::search (lines 162-171): a negative offset returns
an empty list without touching the store; otherwise delegate to the
store's query with fuzzy fixed to true. -/
def search (s : EngineState) (path keywords : String)
    (offset maxCount : Int) : List String × EngineState :=
  if offset < 0 then ([], s)
  else
    let r := s.indexManager.search path keywords offset maxCount true
    (r.1, { s with indexManager := r.2 })

/-- base_event_handler::removePath (lines 174-180): issue the removal,
then report whether the document is now absent. -/
def removePath (s : EngineState) (path : String) : Bool × EngineState :=
  let m := s.indexManager.remove_index path
  (!(m.document_exists path), { s with indexManager := m })

/-- base_event_handler::hasLFT (lines 182-185): delegate documentExists. -/
def hasLFT (s : EngineState) (path : String) : Bool :=
  s.indexManager.document_exists path

/-- base_event_handler::addPath (lines 187-197): derive a record from the
path via the external generator (generate_file_record, a parameter here);
on failure return false without touching anything; on success enqueue a
delayed add and return documentExists(path). -/
def addPath (gen : String → Option String) (s : EngineState)
    (path : String) : Bool × EngineState :=
  match gen path with
  | some record =>
    let m := s.indexManager.add_index_delay record
    (m.document_exists path, { s with indexManager := m })
  | none => (false, s)

/-! Worker thread and lifecycle (worker_loop lines 125-143,
terminate_processing lines 25-38), as a labelled transition system. -/

/-- Phase of the worker thread in base_event_handler::worker_loop. -/
inductive WorkerPhase where
  | waiting
  | draining
  | stopped
  deriving DecidableEq, Repr

/-- Whole-system state: the engine, the worker's phase, and whether the
worker thread has already been joined. -/
structure SysState where
  engine : EngineState
  phase : WorkerPhase
  joined : Bool
  deriving DecidableEq, Repr

/-- The wait predicate at line 130-134: addition_jobs_.size() > batch_size_
or deletion jobs ready or should_stop_. -/
def wake_condition (s : EngineState) : Bool :=
  (decide (s.additionJobs.length > s.batchSize)) ||
    s.indexManager.deletion_jobs_ready || s.shouldStop

/-- Steps of the worker thread (worker_loop, lines 128-142).  Waking up —
whether signalled with the predicate true or timed out after 1 second —
first checks should_stop_: if set, the loop breaks with no call to
eat_jobs; otherwise eat_jobs runs and the worker waits again.  The concrete
1-second timeout is real time and is not modelled; a timeout wake is simply
an enabled step. -/
inductive workerStep : SysState → SysState → Prop where
  | exitOnStop (s : SysState) (h : s.phase = WorkerPhase.waiting)
      (hstop : s.engine.shouldStop = true) :
      workerStep s { s with phase := WorkerPhase.stopped }
  | wakeToDrain (s : SysState) (h : s.phase = WorkerPhase.waiting)
      (hstop : s.engine.shouldStop = false) :
      workerStep s { s with phase := WorkerPhase.draining }
  | drain (s : SysState) (now : Nat) (h : s.phase = WorkerPhase.draining) :
      workerStep s { s with engine := eat_jobs now s.engine, phase := WorkerPhase.waiting }

/-- Steps taken by caller threads on the public surface. -/
inductive callerStep : SysState → SysState → Prop where
  | setStop (s : SysState) :
      callerStep s { s with engine := { s.engine with shouldStop := true } }
  | insertPending (s : SysState) (rs : List String) :
      callerStep s { s with engine := insert_pending_records s.engine rs }
  | scheduledTask (s : SysState) :
      callerStep s { s with engine := run_scheduled_task s.engine }
  | enqueueAdd (s : SysState) (r : String) :
      callerStep s { s with engine := add_index_delay s.engine r }
  | enqueueRemove (s : SysState) (t : String) :
      callerStep s { s with engine := remove_index_delay s.engine t }
  | doSearch (s : SysState) (p kw : String) (o mc : Int) :
      callerStep s { s with engine := (search s.engine p kw o mc).2 }
  | doRemovePath (s : SysState) (p : String) :
      callerStep s { s with engine := (removePath s.engine p).2 }
  | doAddPath (s : SysState) (gen : String → Option String) (p : String) :
      callerStep s { s with engine := (addPath gen s.engine p).2 }
  | joinWorker (s : SysState) (h : s.phase = WorkerPhase.stopped) :
      callerStep s { s with joined := true }

/-- A system step is a worker step or a caller step. -/
def sysStep (s t : SysState) : Prop :=
  workerStep s t ∨ callerStep s t

/-- First half of terminate_processing (lines 26-29): set should_stop_
under the lock (then notify one waiter). -/
def terminate_set_stop (s : SysState) : SysState :=
  { s with engine := { s.engine with shouldStop := true } }

/-- Join guard of terminate_processing (lines 33-37): join only when the
thread is still joinable; a second call is a no-op. -/
def terminate_join (s : SysState) : SysState :=
  if s.joined then s else { s with joined := true }

/-! Lock instrumentation for the shared-state accesses each member
function performs, with the fact whether the engine mutex mtx_ is held at
that access, read off the source line by line. -/

/-- A kind of access to the engine's mutable shared state or to a
collaborator gateway. -/
inductive SharedAccess where
  | pendingAppend
  | pendingSizeRead
  | pendingFrontRead
  | pendingPop
  | additionPush
  | additionSizeRead
  | additionPop
  | stopWrite
  | stopRead
  | storeCall
  | mountCall
  deriving DecidableEq, Repr

/-- One shared-state access together with whether mtx_ is held. -/
structure LockEvt where
  access : SharedAccess
  locked : Bool
  deriving DecidableEq, Repr

/-- insert_pending_records (lines 72-77): appends to records_ with no lock
taken anywhere in the body. -/
def trace_insert_pending_records : List LockEvt :=
  [⟨SharedAccess.pendingAppend, false⟩]

/-- record_size (lines 79-81): reads records_.size() with no lock. -/
def trace_record_size : List LockEvt :=
  [⟨SharedAccess.pendingSizeRead, false⟩]

/-- One iteration of the loop in run_scheduled_task (lines 43-49): the
lock_guard scope covers only the store call and the records_.front() read
inside it; records_.pop_front() runs after the guard is destroyed. -/
def drainIterTrace : List LockEvt :=
  [⟨SharedAccess.pendingFrontRead, true⟩,
   ⟨SharedAccess.storeCall, true⟩,
   ⟨SharedAccess.pendingPop, false⟩]

/-- run_scheduled_task (lines 40-53): records_.empty() and
records_.size() are read with no lock; then the drain loop runs
min(500, size) times. -/
def trace_run_scheduled_task (pendingLen : Nat) : List LockEvt :=
  ⟨SharedAccess.pendingSizeRead, false⟩ ::
    (if pendingLen = 0 then []
     else ⟨SharedAccess.pendingSizeRead, false⟩ ::
       (List.replicate (min 500 pendingLen) drainIterTrace).flatten)

/-- add_index_delay (lines 105-115): push and size check on
addition_jobs_, all under the lock_guard. -/
def trace_add_index_delay : List LockEvt :=
  [⟨SharedAccess.additionPush, true⟩, ⟨SharedAccess.additionSizeRead, true⟩]

/-- remove_index_delay (lines 117-123): two store calls under the
lock_guard. -/
def trace_remove_index_delay : List LockEvt :=
  [⟨SharedAccess.storeCall, true⟩, ⟨SharedAccess.storeCall, true⟩]

/-- terminate_processing flag write (lines 26-29): under a lock_guard. -/
def trace_terminate_set_stop : List LockEvt :=
  [⟨SharedAccess.stopWrite, true⟩]

/-- search with a non-negative offset (lines 169-170): the store query
runs under the lock_guard. -/
def trace_search_store : List LockEvt :=
  [⟨SharedAccess.storeCall, true⟩]

/-- refresh_mount_status (lines 83-85): calls mnt_manager_.update() with
no lock. -/
def trace_refresh_mount_status : List LockEvt :=
  [⟨SharedAccess.mountCall, false⟩]

/-- The wait predicate evaluation in worker_loop (lines 130-134): the
condition variable re-evaluates it holding the unique_lock. -/
def trace_worker_wait : List LockEvt :=
  [⟨SharedAccess.additionSizeRead, true⟩,
   ⟨SharedAccess.storeCall, true⟩,
   ⟨SharedAccess.stopRead, true⟩]

/-! Public operations of the engine, as one dispatch type, used to state
properties quantified over the whole public surface. -/

/-- One invocation of a public engine operation (the state-changing
surface of base_event_handler). -/
inductive EngineOp where
  | scheduledDrain
  | insertPending (rs : List String)
  | enqueueDelayedAdd (r : String)
  | enqueueDelayedRemove (t : String)
  | doSearch (path keywords : String) (offset maxCount : Int)
  | doRemovePath (p : String)
  | doHasRecord (p : String)
  | doAddPath (gen : String → Option String) (p : String)
  | doEatJobs (now : Nat)

/-- State transformer of each public operation. -/
def applyOp (s : EngineState) : EngineOp → EngineState
  | EngineOp.scheduledDrain => run_scheduled_task s
  | EngineOp.insertPending rs => insert_pending_records s rs
  | EngineOp.enqueueDelayedAdd r => add_index_delay s r
  | EngineOp.enqueueDelayedRemove t => remove_index_delay s t
  | EngineOp.doSearch p kw o mc => (search s p kw o mc).2
  | EngineOp.doRemovePath p => (removePath s p).2
  | EngineOp.doHasRecord _ => s
  | EngineOp.doAddPath gen p => (addPath gen s p).2
  | EngineOp.doEatJobs now => eat_jobs now s

/-- Every query event in the log carries the fuzzy flag set. -/
def fuzzyOnly (l : List StoreEvent) : Bool :=
  l.all fun e =>
    match e with
    | StoreEvent.queryEvt _ _ _ _ fz => fz
    | _ => true

/-! Helper characterizations of the two drain loops. -/

/-- Folding a list of records into the store through delayed adds. -/
def addDelayedList (m : IndexManager) (rs : List String) : IndexManager :=
  rs.foldl IndexManager.add_index_delay m

theorem addDelayedList_eq (m : IndexManager) (rs : List String) :
    addDelayedList m rs =
      { m with delayedAdds := m.delayedAdds ++ rs,
               eventLog := m.eventLog ++ rs.map StoreEvent.addDelayed } := by
  induction rs generalizing m with
  | nil => simp [addDelayedList]
  | cons r rs ih =>
    show addDelayedList (m.add_index_delay r) rs = _
    rw [ih]
    simp [IndexManager.add_index_delay]

theorem drainPendingLoop_eq (n : Nat) (s : EngineState)
    (h : n ≤ s.records.length) :
    drainPendingLoop n s =
      { s with records := s.records.drop n,
               indexManager := addDelayedList s.indexManager (s.records.take n) } := by
  induction n generalizing s with
  | zero => simp [drainPendingLoop, addDelayedList]
  | succ n ih =>
    obtain ⟨recs, aj, bs, st, la, bi, im⟩ := s
    cases recs with
    | nil => simp at h
    | cons r rest =>
      simp only [drainPendingLoop]
      rw [ih _ (by simpa using Nat.le_of_succ_le_succ h)]
      simp [addDelayedList]

/-- Folding a list of records into the store through immediate adds. -/
def addImmediateList (m : IndexManager) (rs : List String) : IndexManager :=
  rs.foldl IndexManager.add_index m

theorem addImmediateList_eventLog (m : IndexManager) (rs : List String) :
    (addImmediateList m rs).eventLog = m.eventLog ++ rs.map StoreEvent.addImmediate := by
  induction rs generalizing m with
  | nil => simp [addImmediateList]
  | cons r rs ih =>
    show (addImmediateList (m.add_index r) rs).eventLog = _
    rw [ih]
    simp [IndexManager.add_index]

theorem addImmediateList_deletionJobs (m : IndexManager) (rs : List String) :
    (addImmediateList m rs).deletionJobs = m.deletionJobs := by
  induction rs generalizing m with
  | nil => rfl
  | cons r rs ih =>
    show (addImmediateList (m.add_index r) rs).deletionJobs = _
    rw [ih]
    simp [IndexManager.add_index]

theorem flushLoop_eq (n : Nat) (s : EngineState)
    (h : n ≤ s.additionJobs.length) :
    flushLoop n s =
      { s with additionJobs := s.additionJobs.drop n,
               indexManager := addImmediateList s.indexManager (s.additionJobs.take n) } := by
  induction n generalizing s with
  | zero => simp [flushLoop, addImmediateList]
  | succ n ih =>
    obtain ⟨recs, aj, bs, st, la, bi, im⟩ := s
    cases aj with
    | nil => simp at h
    | cons r rest =>
      simp only [flushLoop]
      rw [ih _ (by simpa using Nat.le_of_succ_le_succ h)]
      simp [addImmediateList]

/-- C1 — For every state of the pending buffer, one invocation of
scheduledDrain (run_scheduled_task) removes exactly min(500, pendingCount)
records from the front of the buffer, in insertion order, forwarding each
one to the Index Store's delayed-add operation; it never removes more than
500 records, and pendingCount decreases by exactly that amount. -/
theorem C1_scheduled_drain (s : EngineState) :
    (run_scheduled_task s).records = s.records.drop (min 500 (record_size s)) ∧
    (run_scheduled_task s).indexManager.eventLog =
      s.indexManager.eventLog ++
        (s.records.take (min 500 (record_size s))).map StoreEvent.addDelayed ∧
    (run_scheduled_task s).indexManager.delayedAdds =
      s.indexManager.delayedAdds ++ s.records.take (min 500 (record_size s)) ∧
    record_size s - record_size (run_scheduled_task s) = min 500 (record_size s) ∧
    record_size s - record_size (run_scheduled_task s) ≤ 500 := by
  have hmin : min 500 (record_size s) ≤ s.records.length :=
    Nat.min_le_right _ _
  have hrun : run_scheduled_task s =
      { s with records := s.records.drop (min 500 (record_size s)),
               indexManager :=
                 addDelayedList s.indexManager (s.records.take (min 500 (record_size s))) } := by
    unfold run_scheduled_task
    by_cases he : s.records.isEmpty
    · rw [if_pos he]
      have hnil : s.records = [] := List.isEmpty_iff.mp he
      have hz : min 500 (record_size s) = 0 := by simp [record_size, hnil]
      rw [hz]
      simp [addDelayedList]
    · rw [if_neg he]
      exact drainPendingLoop_eq _ _ hmin
  refine ⟨?_, ?_, ?_, ?_, ?_⟩
  · rw [hrun]
  · rw [hrun, addDelayedList_eq]
  · rw [hrun, addDelayedList_eq]
  · rw [hrun]
    simp [record_size]
    omega
  · rw [hrun]
    simp [record_size]
    omega

/-- C2 — In every worker drain cycle: if additionQueue.size() > maxBatchSize
or (now - lastFlushTime) >= flushInterval, exactly
min(maxBatchSize, additionQueue.size()) records are removed from the front
of the addition queue and each is handed individually to the Index Store's
immediate-add operation, after which lastFlushTime is updated; otherwise
the addition queue is unchanged.  In either case, if the store reports
deletionJobsReady, processDeletionJobs is invoked.  At most maxBatchSize
addition jobs are flushed per cycle. -/
theorem C2_eat_jobs (now : Nat) (s : EngineState) :
    (s.additionJobs.length > s.batchSize ∨ now - s.lastAdditionTime ≥ s.batchInterval →
      (eat_jobs now s).additionJobs =
        s.additionJobs.drop (min s.batchSize s.additionJobs.length) ∧
      (eat_jobs now s).lastAdditionTime = now ∧
      (eat_jobs now s).indexManager.eventLog =
        s.indexManager.eventLog ++
          (s.additionJobs.take (min s.batchSize s.additionJobs.length)).map
            StoreEvent.addImmediate ++
          (if s.indexManager.deletion_jobs_ready then [StoreEvent.processDeletions] else [])) ∧
    (¬(s.additionJobs.length > s.batchSize ∨ now - s.lastAdditionTime ≥ s.batchInterval) →
      (eat_jobs now s).additionJobs = s.additionJobs ∧
      (eat_jobs now s).lastAdditionTime = s.lastAdditionTime ∧
      (eat_jobs now s).indexManager.eventLog =
        s.indexManager.eventLog ++
          (if s.indexManager.deletion_jobs_ready then [StoreEvent.processDeletions] else [])) ∧
    (s.indexManager.deletion_jobs_ready = true →
      StoreEvent.processDeletions ∈ (eat_jobs now s).indexManager.eventLog) ∧
    s.additionJobs.length - (eat_jobs now s).additionJobs.length ≤ s.batchSize := by
  have hk : min s.batchSize s.additionJobs.length ≤ s.additionJobs.length :=
    Nat.min_le_right _ _
  have hkb : min s.batchSize s.additionJobs.length ≤ s.batchSize :=
    Nat.min_le_left _ _
  have hflush := flushLoop_eq (min s.batchSize s.additionJobs.length) s hk
  by_cases hc : s.additionJobs.length > s.batchSize ∨ now - s.lastAdditionTime ≥ s.batchInterval
  · have hcb : (decide (s.additionJobs.length > s.batchSize) ||
        decide (now - s.lastAdditionTime ≥ s.batchInterval)) = true := by
      rcases hc with h | h
      · simp [h]
      · simp [h]
    by_cases hr : s.indexManager.deletion_jobs_ready
    · have he : eat_jobs now s =
          { s with additionJobs :=
                     s.additionJobs.drop (min s.batchSize s.additionJobs.length),
                   lastAdditionTime := now,
                   indexManager :=
                     (addImmediateList s.indexManager
                       (s.additionJobs.take (min s.batchSize s.additionJobs.length))).process_deletion_jobs } := by
        unfold eat_jobs
        simp only [hcb, if_true, hflush]
        simp [IndexManager.deletion_jobs_ready, addImmediateList_deletionJobs,
          show (!s.indexManager.deletionJobs.isEmpty) = true from hr]
      refine ⟨fun _ => ?_, fun hn => absurd hc hn, fun _ => ?_, ?_⟩
      · rw [he]
        simp [IndexManager.process_deletion_jobs, addImmediateList_eventLog, hr]
      · rw [he]
        simp [IndexManager.process_deletion_jobs]
      · rw [he]
        simp only [List.length_drop]
        omega
    · have he : eat_jobs now s =
          { s with additionJobs :=
                     s.additionJobs.drop (min s.batchSize s.additionJobs.length),
                   lastAdditionTime := now,
                   indexManager :=
                     addImmediateList s.indexManager
                       (s.additionJobs.take (min s.batchSize s.additionJobs.length)) } := by
        unfold eat_jobs
        simp only [hcb, if_true, hflush]
        simp [IndexManager.deletion_jobs_ready, addImmediateList_deletionJobs,
          show ¬((!s.indexManager.deletionJobs.isEmpty) = true) from hr]
      refine ⟨fun _ => ?_, fun hn => absurd hc hn, fun hmem => absurd hmem hr, ?_⟩
      · rw [he]
        simp [addImmediateList_eventLog, hr]
      · rw [he]
        simp only [List.length_drop]
        omega
  · have hcb : (decide (s.additionJobs.length > s.batchSize) ||
        decide (now - s.lastAdditionTime ≥ s.batchInterval)) = false := by
      push_neg at hc
      simp [hc.1, hc.2]
    by_cases hr : s.indexManager.deletion_jobs_ready
    · have he : eat_jobs now s =
          { s with indexManager := s.indexManager.process_deletion_jobs } := by
        unfold eat_jobs
        simp only [hcb, Bool.false_eq_true, if_false]
        simp [show (s.indexManager.deletion_jobs_ready) = true from hr]
      refine ⟨fun hyes => absurd hyes hc, fun _ => ?_, fun _ => ?_, ?_⟩
      · rw [he]
        simp [IndexManager.process_deletion_jobs, hr]
      · rw [he]
        simp [IndexManager.process_deletion_jobs]
      · rw [he]
        simp
    · have he : eat_jobs now s = s := by
        unfold eat_jobs
        simp only [hcb, Bool.false_eq_true, if_false]
        simp [show ¬(s.indexManager.deletion_jobs_ready = true) from hr]
      refine ⟨fun hyes => absurd hyes hc, fun _ => ?_, fun hmem => absurd hmem hr, ?_⟩
      · rw [he]
        simp [hr]
      · rw [he]
        simp

/-- Witness for C2 at a concrete state: queue ["a", "b", "c"], batch size
2, a flush forced by the elapsed interval, one deletion job pending. -/
theorem C2_eat_jobs_witness :
    (eat_jobs 50
      { records := [], additionJobs := ["a", "b", "c"], batchSize := 2,
        shouldStop := false, lastAdditionTime := 0, batchInterval := 7,
        indexManager :=
          { documents := [], delayedAdds := [], deletionJobs := ["d"],
            eventLog := [] } }).additionJobs = ["c"] ∧
    (eat_jobs 50
      { records := [], additionJobs := ["a", "b", "c"], batchSize := 2,
        shouldStop := false, lastAdditionTime := 0, batchInterval := 7,
        indexManager :=
          { documents := [], delayedAdds := [], deletionJobs := ["d"],
            eventLog := [] } }).indexManager.eventLog =
      [StoreEvent.addImmediate "a", StoreEvent.addImmediate "b",
       StoreEvent.processDeletions] := by
  have h := C2_eat_jobs 50
    { records := [], additionJobs := ["a", "b", "c"], batchSize := 2,
      shouldStop := false, lastAdditionTime := 0, batchInterval := 7,
      indexManager :=
        { documents := [], delayedAdds := [], deletionJobs := ["d"],
          eventLog := [] } }
  obtain ⟨hA, _, hC, _⟩ := h
  have hA' := hA (Or.inr (by decide))
  have hC' := hC (by decide)
  refine ⟨?_, ?_⟩
  · exact hA'.1
  · have := hA'.2.2
    simpa using this

/-- C3 — The ignored-event filter: a path ending in ".longname" is ignored
regardless of mount state and of the preceding decision; otherwise, with
precedingIgnored false the result is exactly the mount-type match for
"fuse.dlnfs"; with precedingIgnored true the result is false and is
independent of the mount snapshot (no lookup can influence it). -/
theorem C3_ignored_event (path_match_type alt : String → String → Bool)
    (path : String) (b : Bool) :
    (ends_with path ".longname" = true →
      ignored_event path_match_type path b = true) ∧
    (ends_with path ".longname" = false →
      ignored_event path_match_type path false = path_match_type path "fuse.dlnfs") ∧
    (ends_with path ".longname" = false →
      ignored_event path_match_type path true = false) ∧
    ignored_event path_match_type path true = ignored_event alt path true := by
  unfold ignored_event
  by_cases hs : ends_with path ".longname"
  · simp [hs]
  · simp [hs]

/-- Witness for C3: a ".longname" path is ignored even with the preceding
event marked ignored and a never-matching mount snapshot; a plain path
with precedingIgnored true is kept even under an always-matching
snapshot. -/
theorem C3_ignored_event_witness :
    ignored_event (fun _ _ => false) "x.longname" true = true ∧
    ignored_event (fun _ _ => true) "/a" true = false := by
  have h1 := C3_ignored_event (fun _ _ => false) (fun _ _ => false) "x.longname" true
  have h2 := C3_ignored_event (fun _ _ => true) (fun _ _ => true) "/a" true
  exact ⟨h1.1 (by decide), h2.2.2.1 (by decide)⟩

/-- C4 — addPath: when record generation fails it returns false and leaves
the engine (hence hasRecord) unchanged; when generation succeeds it
enqueues a delayed add of the generated record and returns
documentExists(path); whenever it returns true, hasRecord(path) holds
afterward. -/
theorem C4_addPath (gen : String → Option String) (s : EngineState)
    (path : String) :
    (gen path = none →
      addPath gen s path = (false, s) ∧
      hasLFT (addPath gen s path).2 path = hasLFT s path) ∧
    (∀ r, gen path = some r →
      (addPath gen s path).2 =
        { s with indexManager := s.indexManager.add_index_delay r } ∧
      (addPath gen s path).1 =
        (s.indexManager.add_index_delay r).document_exists path) ∧
    ((addPath gen s path).1 = true → hasLFT (addPath gen s path).2 path = true) := by
  cases hg : gen path with
  | none =>
    refine ⟨fun _ => ⟨?_, ?_⟩, fun r hr => Option.noConfusion hr, fun htrue => ?_⟩
    · simp [addPath, hg]
    · simp [addPath, hg]
    · simp [addPath, hg] at htrue
  | some r =>
    refine ⟨fun hn => Option.noConfusion hn, fun r' hr' => ?_, fun htrue => ?_⟩
    · have hrr : r = r' := by injection hr'
      subst hrr
      exact ⟨by simp [addPath, hg], by simp [addPath, hg]⟩
    · simp only [addPath, hg] at htrue ⊢
      simpa [hasLFT, IndexManager.document_exists, IndexManager.add_index_delay]
        using htrue

/-- Witness for C4: a failing generator leaves the state untouched and
returns false; a succeeding generator on an already-indexed path returns
true. -/
theorem C4_addPath_witness :
    addPath (fun _ => none)
      { records := [], additionJobs := [], batchSize := 100,
        shouldStop := false, lastAdditionTime := 0, batchInterval := 7,
        indexManager := { documents := [], delayedAdds := [], deletionJobs := [],
                          eventLog := [] } } "/a" =
      (false,
       { records := [], additionJobs := [], batchSize := 100,
         shouldStop := false, lastAdditionTime := 0, batchInterval := 7,
         indexManager := { documents := [], delayedAdds := [], deletionJobs := [],
                           eventLog := [] } }) ∧
    (addPath (fun p => some p)
      { records := [], additionJobs := [], batchSize := 100,
        shouldStop := false, lastAdditionTime := 0, batchInterval := 7,
        indexManager := { documents := ["/a"], delayedAdds := [], deletionJobs := [],
                          eventLog := [] } } "/a").1 = true := by
  have h1 := C4_addPath (fun _ => none)
    { records := [], additionJobs := [], batchSize := 100,
      shouldStop := false, lastAdditionTime := 0, batchInterval := 7,
      indexManager := { documents := [], delayedAdds := [], deletionJobs := [],
                        eventLog := [] } } "/a"
  have h2 := C4_addPath (fun p => some p)
    { records := [], additionJobs := [], batchSize := 100,
      shouldStop := false, lastAdditionTime := 0, batchInterval := 7,
      indexManager := { documents := ["/a"], delayedAdds := [], deletionJobs := [],
                        eventLog := [] } } "/a"
  refine ⟨(h1.1 rfl).1, ?_⟩
  rw [(h2.2.1 "/a" rfl).2]
  decide

theorem contains_filter_ne (l : List String) (p : String) :
    (l.filter (fun q => q != p)).contains p = false := by
  induction l with
  | nil => rfl
  | cons a l ih =>
    by_cases h : a = p
    · have hf : (a != p) = false := by simp [h]
      simp [List.filter_cons, hf, ih]
    · have ht : (a != p) = true := by simp [h]
      have hpa : (p == a) = false := by
        simp [Ne.symm h]
      simp [List.filter_cons, ht, List.contains_cons, hpa, ih, Ne.symm h]

/-- C5 — removePath always issues the removal to the store and returns the
negated post-state existence check; afterwards hasRecord(path) is false,
so the call returns true, whether or not the path was indexed before. -/
theorem C5_removePath (s : EngineState) (path : String) :
    (removePath s path).2 =
      { s with indexManager := s.indexManager.remove_index path } ∧
    (removePath s path).1 =
      !((s.indexManager.remove_index path).document_exists path) ∧
    hasLFT (removePath s path).2 path = false ∧
    (removePath s path).1 = true := by
  refine ⟨rfl, rfl, ?_, ?_⟩
  · simp [removePath, hasLFT, IndexManager.document_exists, IndexManager.remove_index,
      contains_filter_ne]
  · simp [removePath, IndexManager.document_exists, IndexManager.remove_index,
      contains_filter_ne]

/-- C6 — search rejects a negative offset by returning an empty sequence
with the engine (and in particular the store's event log) untouched; for
a non-negative offset it delegates to the Index Store's query
operation. -/
theorem C6_search (s : EngineState) (path keywords : String)
    (offset maxCount : Int) :
    (offset < 0 →
      search s path keywords offset maxCount = ([], s)) ∧
    (0 ≤ offset →
      (search s path keywords offset maxCount).1 =
        (s.indexManager.search path keywords offset maxCount true).1 ∧
      (search s path keywords offset maxCount).2 =
        { s with indexManager :=
            (s.indexManager.search path keywords offset maxCount true).2 }) := by
  by_cases h : offset < 0
  · refine ⟨fun _ => ?_, fun hge => absurd h (not_lt.mpr hge)⟩
    simp [search, h]
  · refine ⟨fun hlt => absurd hlt h, fun _ => ?_⟩
    constructor
    · simp [search, h]
    · simp [search, h]

/-- Witness for C6: offset -1 yields an empty result and an unchanged
state; offset 0 logs exactly one store query. -/
theorem C6_search_witness :
    search
      { records := [], additionJobs := [], batchSize := 100,
        shouldStop := false, lastAdditionTime := 0, batchInterval := 7,
        indexManager := { documents := ["/a"], delayedAdds := [], deletionJobs := [],
                          eventLog := [] } } "/" "kw" (-1) 5 =
      ([],
       { records := [], additionJobs := [], batchSize := 100,
         shouldStop := false, lastAdditionTime := 0, batchInterval := 7,
         indexManager := { documents := ["/a"], delayedAdds := [], deletionJobs := [],
                           eventLog := [] } }) ∧
    (search
      { records := [], additionJobs := [], batchSize := 100,
        shouldStop := false, lastAdditionTime := 0, batchInterval := 7,
        indexManager := { documents := ["/a"], delayedAdds := [], deletionJobs := [],
                          eventLog := [] } } "/" "kw" 0 5).2.indexManager.eventLog =
      [StoreEvent.queryEvt "/" "kw" 0 5 true] := by
  have h1 := C6_search
    { records := [], additionJobs := [], batchSize := 100,
      shouldStop := false, lastAdditionTime := 0, batchInterval := 7,
      indexManager := { documents := ["/a"], delayedAdds := [], deletionJobs := [],
                        eventLog := [] } } "/" "kw" (-1) 5
  have h2 := C6_search
    { records := [], additionJobs := [], batchSize := 100,
      shouldStop := false, lastAdditionTime := 0, batchInterval := 7,
      indexManager := { documents := ["/a"], delayedAdds := [], deletionJobs := [],
                        eventLog := [] } } "/" "kw" 0 5
  refine ⟨h1.1 (by decide), ?_⟩
  rw [(h2.2 (by decide)).2]
  rfl

theorem run_scheduled_task_eq (s : EngineState) :
    run_scheduled_task s =
      { s with records := s.records.drop (min 500 s.records.length),
               indexManager := addDelayedList s.indexManager
                 (s.records.take (min 500 s.records.length)) } := by
  unfold run_scheduled_task
  by_cases he : s.records.isEmpty
  · rw [if_pos he]
    have hnil : s.records = [] := List.isEmpty_iff.mp he
    have hz : min 500 s.records.length = 0 := by simp [hnil]
    rw [hz]
    simp [addDelayedList]
  · rw [if_neg he]
    exact drainPendingLoop_eq _ _ (Nat.min_le_right _ _)

theorem eat_jobs_eq (now : Nat) (s : EngineState) :
    eat_jobs now s =
      if (decide (s.additionJobs.length > s.batchSize) ||
          decide (now - s.lastAdditionTime ≥ s.batchInterval)) = true then
        (if s.indexManager.deletion_jobs_ready = true then
          { s with additionJobs :=
                     s.additionJobs.drop (min s.batchSize s.additionJobs.length),
                   lastAdditionTime := now,
                   indexManager :=
                     (addImmediateList s.indexManager
                       (s.additionJobs.take
                         (min s.batchSize s.additionJobs.length))).process_deletion_jobs }
        else
          { s with additionJobs :=
                     s.additionJobs.drop (min s.batchSize s.additionJobs.length),
                   lastAdditionTime := now,
                   indexManager :=
                     addImmediateList s.indexManager
                       (s.additionJobs.take (min s.batchSize s.additionJobs.length)) })
      else
        (if s.indexManager.deletion_jobs_ready = true then
          { s with indexManager := s.indexManager.process_deletion_jobs }
        else s) := by
  have hk : min s.batchSize s.additionJobs.length ≤ s.additionJobs.length :=
    Nat.min_le_right _ _
  have hflush := flushLoop_eq (min s.batchSize s.additionJobs.length) s hk
  by_cases hcb : (decide (s.additionJobs.length > s.batchSize) ||
      decide (now - s.lastAdditionTime ≥ s.batchInterval)) = true
  · rw [if_pos hcb]
    by_cases hr : s.indexManager.deletion_jobs_ready = true
    · rw [if_pos hr]
      unfold eat_jobs
      simp only [hcb, if_true, hflush]
      simp [IndexManager.deletion_jobs_ready, addImmediateList_deletionJobs,
        show (!s.indexManager.deletionJobs.isEmpty) = true from hr]
    · rw [if_neg hr]
      unfold eat_jobs
      simp only [hcb, if_true, hflush]
      simp [IndexManager.deletion_jobs_ready, addImmediateList_deletionJobs,
        show ¬((!s.indexManager.deletionJobs.isEmpty) = true) from hr]
  · rw [if_neg hcb]
    have hcb2 : (decide (s.additionJobs.length > s.batchSize) ||
        decide (now - s.lastAdditionTime ≥ s.batchInterval)) = false := by
      simpa using hcb
    by_cases hr : s.indexManager.deletion_jobs_ready = true
    · rw [if_pos hr]
      unfold eat_jobs
      simp only [hcb2, Bool.false_eq_true, if_false]
      simp [show s.indexManager.deletion_jobs_ready = true from hr]
    · rw [if_neg hr]
      unfold eat_jobs
      simp only [hcb2, Bool.false_eq_true, if_false]
      simp [show ¬(s.indexManager.deletion_jobs_ready = true) from hr]

theorem eat_jobs_shouldStop (now : Nat) (s : EngineState) :
    (eat_jobs now s).shouldStop = s.shouldStop := by
  rw [eat_jobs_eq]
  split
  · split <;> rfl
  · split <;> rfl

theorem run_scheduled_task_shouldStop (e : EngineState) :
    (run_scheduled_task e).shouldStop = e.shouldStop := by
  simp [run_scheduled_task_eq]

theorem search_shouldStop (e : EngineState) (p kw : String) (o mc : Int) :
    ((search e p kw o mc).2).shouldStop = e.shouldStop := by
  unfold search
  split <;> rfl

theorem addPath_shouldStop (gen : String → Option String) (e : EngineState)
    (p : String) : ((addPath gen e p).2).shouldStop = e.shouldStop := by
  unfold addPath
  cases gen p <;> rfl

theorem callerStep_phase {s t : SysState} (h : callerStep s t) :
    t.phase = s.phase := by
  cases h <;> rfl

theorem workerStep_not_stopped {s t : SysState}
    (hp : s.phase = WorkerPhase.stopped) : ¬ workerStep s t := by
  intro h
  cases h with
  | exitOnStop h1 h2 => rw [hp] at h1; cases h1
  | wakeToDrain h1 h2 => rw [hp] at h1; cases h1
  | drain now h1 => rw [hp] at h1; cases h1

/-- C7 — terminate_processing sets the shutdown flag, and the flag is
monotone (no system step ever clears it); the join guard is idempotent
(a no-op once the thread is joined); and once the worker thread has
exited — the condition terminate blocks on — the worker phase stays
Stopped along every further sequence of system steps, including ones that
enqueue new records, and no worker step (in particular no drain) is
possible any more. -/
theorem C7_terminate :
    (∀ s : SysState, (terminate_set_stop s).engine.shouldStop = true) ∧
    (∀ s t : SysState, sysStep s t → s.engine.shouldStop = true →
      t.engine.shouldStop = true) ∧
    (∀ s : SysState, s.joined = true → terminate_join s = s) ∧
    (∀ s t : SysState, Relation.ReflTransGen sysStep s t →
      s.phase = WorkerPhase.stopped →
      t.phase = WorkerPhase.stopped ∧ ∀ u : SysState, ¬ workerStep t u) := by
  refine ⟨fun s => rfl, ?_, ?_, ?_⟩
  · intro s t hst h
    rcases hst with hw | hc
    · cases hw with
      | exitOnStop h1 h2 => exact h
      | wakeToDrain h1 h2 => exact h
      | drain now h1 =>
        show (eat_jobs now s.engine).shouldStop = true
        rw [eat_jobs_shouldStop]
        exact h
    · cases hc with
      | setStop => rfl
      | insertPending rs => exact h
      | scheduledTask =>
        show (run_scheduled_task s.engine).shouldStop = true
        rw [run_scheduled_task_shouldStop]
        exact h
      | enqueueAdd r => exact h
      | enqueueRemove t' => exact h
      | doSearch p kw o mc =>
        show ((search s.engine p kw o mc).2).shouldStop = true
        rw [search_shouldStop]
        exact h
      | doRemovePath p => exact h
      | doAddPath gen p =>
        show ((addPath gen s.engine p).2).shouldStop = true
        rw [addPath_shouldStop]
        exact h
      | joinWorker h1 => exact h
  · intro s hj
    simp [terminate_join, hj]
  · intro s t hrt hp
    have hstep : ∀ a b : SysState, sysStep a b → a.phase = WorkerPhase.stopped →
        b.phase = WorkerPhase.stopped := by
      intro a b hab ha
      rcases hab with hw | hc
      · exact absurd hw (workerStep_not_stopped ha)
      · rw [callerStep_phase hc, ha]
    have hphase : t.phase = WorkerPhase.stopped := by
      induction hrt with
      | refl => exact hp
      | tail h1 h2 ih => exact hstep _ _ h2 ih
    exact ⟨hphase, fun u => workerStep_not_stopped hphase⟩

/-- A stopped-and-joined concrete system state. -/
def sysStopped : SysState :=
  { engine := { records := [], additionJobs := [], batchSize := 100,
                shouldStop := true, lastAdditionTime := 0, batchInterval := 7,
                indexManager := { documents := [], delayedAdds := [],
                                  deletionJobs := [], eventLog := [] } },
    phase := WorkerPhase.stopped, joined := true }

/-- Witness for C7 at the concrete stopped state: a subsequent enqueue
step keeps the flag set and the phase Stopped, and the join guard is a
no-op. -/
theorem C7_terminate_witness :
    (terminate_set_stop sysStopped).engine.shouldStop = true ∧
    ({ sysStopped with
        engine := insert_pending_records sysStopped.engine ["r"] } : SysState).engine.shouldStop
      = true ∧
    terminate_join sysStopped = sysStopped ∧
    ({ sysStopped with
        engine := insert_pending_records sysStopped.engine ["r"] } : SysState).phase
      = WorkerPhase.stopped := by
  have h := C7_terminate
  refine ⟨h.1 sysStopped, ?_, h.2.2.1 sysStopped rfl, ?_⟩
  · exact h.2.1 sysStopped _ (Or.inr (callerStep.insertPending sysStopped ["r"])) rfl
  · exact (h.2.2.2 sysStopped _
      (Relation.ReflTransGen.single
        (Or.inr (callerStep.insertPending sysStopped ["r"]))) rfl).1

/-- A concrete waiting state with stop requested and one addition job
queued. -/
def c8waiting : SysState :=
  { engine := { records := [], additionJobs := ["a"], batchSize := 100,
                shouldStop := true, lastAdditionTime := 0, batchInterval := 7,
                indexManager := { documents := [], delayedAdds := [],
                                  deletionJobs := [], eventLog := [] } },
    phase := WorkerPhase.waiting, joined := false }

/-- C8 counterexample — the claim that every transition out of Waiting
leads to a drain attempt is false on the code: when stop has been
requested the worker loop breaks before calling eat_jobs, moving directly
from Waiting to Stopped with no pass through Draining, even though a job
is queued. -/
theorem C8_counterexample :
    workerStep c8waiting { c8waiting with phase := WorkerPhase.stopped } ∧
    ({ c8waiting with phase := WorkerPhase.stopped } : SysState).phase ≠
      WorkerPhase.draining ∧
    ¬ (∀ s t : SysState, workerStep s t → s.phase = WorkerPhase.waiting →
        t.phase = WorkerPhase.draining) := by
  refine ⟨workerStep.exitOnStop c8waiting rfl rfl, by simp, fun h => ?_⟩
  have hc := h c8waiting { c8waiting with phase := WorkerPhase.stopped }
    (workerStep.exitOnStop c8waiting rfl rfl) rfl
  simp at hc

/-- C8 (amended) — every transition out of Waiting with stop not yet
requested leads to a drain attempt: the worker moves to Draining with the
engine untouched, and from Draining it performs eat_jobs and returns to
Waiting; when stop has been requested, the worker moves directly from
Waiting to Stopped without a drain attempt. -/
theorem C8_worker_transitions :
    (∀ s t : SysState, workerStep s t → s.phase = WorkerPhase.waiting →
      s.engine.shouldStop = false → t = { s with phase := WorkerPhase.draining }) ∧
    (∀ s t : SysState, workerStep s t → s.phase = WorkerPhase.waiting →
      s.engine.shouldStop = true → t = { s with phase := WorkerPhase.stopped }) ∧
    (∀ s t : SysState, workerStep s t → s.phase = WorkerPhase.draining →
      ∃ now : Nat, t = { s with engine := eat_jobs now s.engine,
                                phase := WorkerPhase.waiting }) := by
  refine ⟨?_, ?_, ?_⟩
  · intro s t hst hw hstop
    cases hst with
    | exitOnStop h1 h2 => rw [hstop] at h2; cases h2
    | wakeToDrain h1 h2 => rfl
    | drain now h1 => rw [hw] at h1; cases h1
  · intro s t hst hw hstop
    cases hst with
    | exitOnStop h1 h2 => rfl
    | wakeToDrain h1 h2 => rw [hstop] at h2; cases h2
    | drain now h1 => rw [hw] at h1; cases h1
  · intro s t hst hd
    cases hst with
    | exitOnStop h1 h2 => rw [hd] at h1; cases h1
    | wakeToDrain h1 h2 => rw [hd] at h1; cases h1
    | drain now h1 => exact ⟨now, rfl⟩

/-- Witness for C8 (amended) at the concrete stop-requested waiting state:
the worker step goes to Stopped. -/
theorem C8_worker_transitions_witness :
    ({ c8waiting with phase := WorkerPhase.stopped } : SysState) =
      { c8waiting with phase := WorkerPhase.stopped } := by
  exact C8_worker_transitions.2.1 c8waiting
    { c8waiting with phase := WorkerPhase.stopped }
    (workerStep.exitOnStop c8waiting rfl rfl) rfl rfl

/-- C9 counterexample — the claim that insertPending, pendingCount and the
scheduled drain's buffer accesses hold the shared lock is false on the
code: insert_pending_records appends to records_ with no lock anywhere in
its body, and run_scheduled_task reads the buffer size and pops the front
outside the lock_guard (only the store call and the front read inside it
are locked). -/
theorem C9_counterexample :
    (trace_insert_pending_records.all fun e => e.locked) = false ∧
    ((trace_run_scheduled_task 1).all fun e => e.locked) = false ∧
    (trace_record_size.all fun e => e.locked) = false := by
  decide

/-- C9 (amended) — the lock discipline the source actually has: the
addition-queue push and size check, the shutdown-flag write, the worker's
wait-predicate reads, the delayed-remove store calls and the query store
call all run under the engine mutex; but insert_pending_records appends
to the pending buffer unlocked, record_size reads it unlocked, the
scheduled drain holds the lock exactly for the store delayed-add call and
the front read and performs its size reads and pops unlocked, and the
mount-snapshot refresh runs unlocked. -/
theorem C9_locking :
    (∀ e ∈ trace_insert_pending_records, e.locked = false) ∧
    (∀ e ∈ trace_record_size, e.locked = false) ∧
    (∀ n : Nat, ∀ e ∈ trace_run_scheduled_task n,
      e.locked = true ↔
        (e.access = SharedAccess.pendingFrontRead ∨
         e.access = SharedAccess.storeCall)) ∧
    (∀ e ∈ trace_add_index_delay, e.locked = true) ∧
    (∀ e ∈ trace_remove_index_delay, e.locked = true) ∧
    (∀ e ∈ trace_terminate_set_stop, e.locked = true) ∧
    (∀ e ∈ trace_worker_wait, e.locked = true) ∧
    (∀ e ∈ trace_search_store, e.locked = true) ∧
    (∀ e ∈ trace_refresh_mount_status, e.locked = false) := by
  refine ⟨?_, ?_, ?_, ?_, ?_, ?_, ?_, ?_, ?_⟩
  · intro e he
    simp [trace_insert_pending_records] at he
    subst he; rfl
  · intro e he
    simp [trace_record_size] at he
    subst he; rfl
  · intro n e he
    simp only [trace_run_scheduled_task] at he
    rcases List.mem_cons.mp he with h | h
    · subst h; simp
    · by_cases hn : n = 0
      · rw [hn] at h; simp at h
      · rw [if_neg hn] at h
        rcases List.mem_cons.mp h with h2 | h2
        · subst h2; simp
        · have hmem : e ∈ drainIterTrace := by
            rcases List.mem_flatten.mp h2 with ⟨l, hl, hel⟩
            rw [List.eq_of_mem_replicate hl] at hel
            exact hel
          simp only [drainIterTrace] at hmem
          rcases List.mem_cons.mp hmem with h3 | h3
          · subst h3; simp
          rcases List.mem_cons.mp h3 with h4 | h4
          · subst h4; simp
          rcases List.mem_cons.mp h4 with h5 | h5
          · subst h5; simp
          · simp at h5
  · intro e he
    simp [trace_add_index_delay] at he
    rcases he with h | h <;> (subst h; rfl)
  · intro e he
    simp [trace_remove_index_delay] at he
    subst he; rfl
  · intro e he
    simp [trace_terminate_set_stop] at he
    subst he; rfl
  · intro e he
    simp [trace_worker_wait] at he
    rcases he with h | h | h <;> (subst h; rfl)
  · intro e he
    simp [trace_search_store] at he
    subst he; rfl
  · intro e he
    simp [trace_refresh_mount_status] at he
    subst he; rfl

/-- Witness for C9 (amended) at concrete events of the traces. -/
theorem C9_locking_witness :
    (⟨SharedAccess.pendingAppend, false⟩ : LockEvt).locked = false ∧
    (⟨SharedAccess.additionPush, true⟩ : LockEvt).locked = true ∧
    ((⟨SharedAccess.pendingPop, false⟩ : LockEvt).locked = true ↔
      ((SharedAccess.pendingPop = SharedAccess.pendingFrontRead ∨
        SharedAccess.pendingPop = SharedAccess.storeCall))) := by
  have h := C9_locking
  exact ⟨h.1 ⟨SharedAccess.pendingAppend, false⟩ (by decide),
    h.2.2.2.1 ⟨SharedAccess.additionPush, true⟩ (by decide),
    h.2.2.1 1 ⟨SharedAccess.pendingPop, false⟩ (by decide)⟩

theorem fuzzyOnly_append (l l' : List StoreEvent) :
    fuzzyOnly (l ++ l') = (fuzzyOnly l && fuzzyOnly l') := by
  simp [fuzzyOnly, List.all_append]

theorem fuzzyOnly_map_addDelayed (rs : List String) :
    fuzzyOnly (rs.map StoreEvent.addDelayed) = true := by
  induction rs with
  | nil => rfl
  | cons r rs ih =>
    show (true && fuzzyOnly (rs.map StoreEvent.addDelayed)) = true
    rw [ih]
    rfl

theorem fuzzyOnly_map_addImmediate (rs : List String) :
    fuzzyOnly (rs.map StoreEvent.addImmediate) = true := by
  induction rs with
  | nil => rfl
  | cons r rs ih =>
    show (true && fuzzyOnly (rs.map StoreEvent.addImmediate)) = true
    rw [ih]
    rfl

theorem fuzzyOnly_processDeletions :
    fuzzyOnly [StoreEvent.processDeletions] = true := rfl

theorem fuzzyOnly_removeDelayed (t : String) :
    fuzzyOnly [StoreEvent.removeDelayed t] = true := rfl

theorem fuzzyOnly_removeImmediate (p : String) :
    fuzzyOnly [StoreEvent.removeImmediate p] = true := rfl

theorem fuzzyOnly_addDelayed (r : String) :
    fuzzyOnly [StoreEvent.addDelayed r] = true := rfl

theorem fuzzyOnly_queryTrue (p kw : String) (o mc : Int) :
    fuzzyOnly [StoreEvent.queryEvt p kw o mc true] = true := rfl

/-- C10 — every store query the engine can issue is fuzzy: for every
non-negative offset the query gateway delegates to the store with the
fuzzy flag fixed to true, and no public operation of the engine appends a
store query event with the flag false (an all-fuzzy event log stays
all-fuzzy under every public operation). -/
theorem C10_fuzzy_only (op : EngineOp) (s : EngineState)
    (h : fuzzyOnly s.indexManager.eventLog = true) :
    fuzzyOnly (applyOp s op).indexManager.eventLog = true ∧
    (∀ (p kw : String) (o mc : Int), 0 ≤ o →
      (search s p kw o mc).2.indexManager.eventLog =
        s.indexManager.eventLog ++ [StoreEvent.queryEvt p kw o mc true]) := by
  constructor
  · cases op with
    | scheduledDrain =>
      show fuzzyOnly (run_scheduled_task s).indexManager.eventLog = true
      rw [run_scheduled_task_eq]
      show fuzzyOnly
        ((addDelayedList s.indexManager
          (s.records.take (min 500 s.records.length))).eventLog) = true
      rw [addDelayedList_eq]
      show fuzzyOnly
        (s.indexManager.eventLog ++
          (s.records.take (min 500 s.records.length)).map StoreEvent.addDelayed) = true
      rw [fuzzyOnly_append, h, fuzzyOnly_map_addDelayed]
      rfl
    | insertPending rs => exact h
    | enqueueDelayedAdd r => exact h
    | enqueueDelayedRemove t =>
      show fuzzyOnly (s.indexManager.eventLog ++ [StoreEvent.removeDelayed t]) = true
      rw [fuzzyOnly_append, h, fuzzyOnly_removeDelayed]
      rfl
    | doSearch p kw o mc =>
      show fuzzyOnly ((search s p kw o mc).2).indexManager.eventLog = true
      unfold search
      by_cases ho : o < 0
      · rw [if_pos ho]
        exact h
      · rw [if_neg ho]
        show fuzzyOnly
          (s.indexManager.eventLog ++ [StoreEvent.queryEvt p kw o mc true]) = true
        rw [fuzzyOnly_append, h, fuzzyOnly_queryTrue]
        rfl
    | doRemovePath p =>
      show fuzzyOnly (s.indexManager.eventLog ++ [StoreEvent.removeImmediate p]) = true
      rw [fuzzyOnly_append, h, fuzzyOnly_removeImmediate]
      rfl
    | doHasRecord p => exact h
    | doAddPath gen p =>
      show fuzzyOnly ((addPath gen s p).2).indexManager.eventLog = true
      unfold addPath
      cases gen p with
      | none => exact h
      | some r =>
        show fuzzyOnly (s.indexManager.eventLog ++ [StoreEvent.addDelayed r]) = true
        rw [fuzzyOnly_append, h, fuzzyOnly_addDelayed]
        rfl
    | doEatJobs now =>
      show fuzzyOnly (eat_jobs now s).indexManager.eventLog = true
      rw [eat_jobs_eq]
      split
      · split
        · show fuzzyOnly
            ((addImmediateList s.indexManager
              (s.additionJobs.take (min s.batchSize s.additionJobs.length))).eventLog ++
              [StoreEvent.processDeletions]) = true
          rw [addImmediateList_eventLog, fuzzyOnly_append, fuzzyOnly_processDeletions,
            fuzzyOnly_append, h, fuzzyOnly_map_addImmediate]
          rfl
        · show fuzzyOnly
            ((addImmediateList s.indexManager
              (s.additionJobs.take (min s.batchSize s.additionJobs.length))).eventLog) = true
          rw [addImmediateList_eventLog, fuzzyOnly_append, h, fuzzyOnly_map_addImmediate]
          rfl
      · split
        · show fuzzyOnly (s.indexManager.eventLog ++ [StoreEvent.processDeletions]) = true
          rw [fuzzyOnly_append, h, fuzzyOnly_processDeletions]
          rfl
        · exact h
  · intro p kw o mc ho
    simp [search, show ¬(o < 0) from not_lt.mpr ho, IndexManager.search]

/-- Witness for C10: starting from an empty (hence all-fuzzy) log, a
query through the public surface keeps the log all-fuzzy, and the
delegated call carries fuzzy = true. -/
theorem C10_fuzzy_only_witness :
    fuzzyOnly (applyOp
      { records := [], additionJobs := [], batchSize := 100,
        shouldStop := false, lastAdditionTime := 0, batchInterval := 7,
        indexManager := { documents := ["/a"], delayedAdds := [], deletionJobs := [],
                          eventLog := [] } }
      (EngineOp.doSearch "/" "kw" 0 5)).indexManager.eventLog = true ∧
    (search
      { records := [], additionJobs := [], batchSize := 100,
        shouldStop := false, lastAdditionTime := 0, batchInterval := 7,
        indexManager := { documents := ["/a"], delayedAdds := [], deletionJobs := [],
                          eventLog := [] } } "/" "kw" 0 5).2.indexManager.eventLog =
      [StoreEvent.queryEvt "/" "kw" 0 5 true] := by
  have h := C10_fuzzy_only (EngineOp.doSearch "/" "kw" 0 5)
    { records := [], additionJobs := [], batchSize := 100,
      shouldStop := false, lastAdditionTime := 0, batchInterval := 7,
      indexManager := { documents := ["/a"], delayedAdds := [], deletionJobs := [],
                        eventLog := [] } } (by decide)
  exact ⟨h.1, by simpa using h.2 "/" "kw" 0 5 (by decide)⟩

end DeepinAnything
